import Mathlib

/-!
Shallow embedding of the simcpp20 discrete-event simulation kernel
(`include/fschuetz04/simcpp20/{event,simulation,value_event,process}.hpp`
and the earlier single-header iteration `simcpp20/simcpp20.hpp`).

Events are shared state machines identified by natural-number ids; a
`World` packs the scheduler state (`now_`, the scheduled-event heap,
the `next_id_` counter) together with the shared data of every event
(`state_`, the list of awaiting promises, the list of callbacks), the
shared `n_ptr` counters used by `all_of`, and the payload slots of
value events.  The priority queue `scheduled_evs_` is modelled as a
plain list with minimum extraction by the ordering of
`scheduled_event::operator>` (ascending time, ties by ascending id).

Coroutine observers are modelled by the effects their resumption can
have on the scheduler (trigger / schedule / abort actions), and the
type-erased callbacks registered by `any_of` / `all_of` are modelled
by the two closure shapes that occur in the source.  `process`
additionally returns the trace of notifications it delivers (resume /
destroy of a promise, invocation of a callback), which is what the
ordering claims are about.
-/

namespace simcpp20

/-- State of an event (`event::state` in `event.hpp`). -/
inductive EvState where
  | pending
  | triggered
  | processed
  | aborted
deriving DecidableEq, Repr

/-- One entry of the scheduler heap (`simulation::scheduled_event`):
time at which to process, incremental id, and the event to process. -/
structure Entry where
  time : Int
  id : Nat
  ev : Nat
deriving DecidableEq, Repr

/-- Mirror of `scheduled_event::operator>`: compare by time, ties by id. -/
def Entry.gtE (a b : Entry) : Bool :=
  if a.time ≠ b.time then decide (a.time > b.time) else decide (a.id > b.id)

/-- Non-strict heap order: `a` is dequeued no later than `b`. -/
def Entry.leE (a b : Entry) : Prop :=
  a.time < b.time ∨ (a.time = b.time ∧ a.id ≤ b.id)

/-- Strict heap order: `a` is dequeued strictly before `b`. -/
def Entry.ltE (a b : Entry) : Prop :=
  a.time < b.time ∨ (a.time = b.time ∧ a.id < b.id)

instance : DecidableRel Entry.leE := fun a b => by
  unfold Entry.leE; infer_instance

instance : DecidableRel Entry.ltE := fun a b => by
  unfold Entry.ltE; infer_instance

/-- Scheduler-visible effects that resuming a suspended coroutine can
perform before it suspends again: triggering an event, scheduling an
event with a non-negative delay (`timeout`), or aborting an event. -/
inductive WAct where
  | triggerA (e : Nat)
  | scheduleA (e : Nat) (d : Nat)
  | abortA (e : Nat)
deriving DecidableEq, Repr

/-- A promise awaiting an event (an element of `event::data::promises_`):
the id of its coroutine frame, whether its own process completion event
has been aborted (`generic_promise_type::is_aborted`), and the effects
its resumption performs. -/
structure Prom where
  pid : Nat
  abortedP : Bool
  acts : List WAct
deriving DecidableEq, Repr

/-- The two callback closures registered by the combinators:
`any_of` registers `[any_of_ev](const auto &) { any_of_ev.trigger(); }` and
`all_of` registers
`[all_of_ev, n_ptr](const auto &) { if (--*n_ptr == 0) all_of_ev.trigger(); }`,
where `ctr` identifies the shared `n_ptr` counter. -/
inductive Cb where
  | anyOfCb (target : Nat)
  | allOfCb (ctr : Nat) (target : Nat)
deriving DecidableEq, Repr

/-- Shared data of one event (`event::data`). -/
structure EvData where
  state : EvState
  promises : List Prom
  cbs : List Cb
deriving DecidableEq, Repr

instance : Inhabited EvData := ⟨⟨.pending, [], []⟩⟩

/-- Whole-system state: the simulation plus the shared data of all
events, the shared `all_of` counters, and value-event payload slots. -/
structure World where
  now_ : Int
  heap : List Entry
  nextId : Nat
  nextEv : Nat
  nextCtr : Nat
  evs : Nat → EvData
  counters : Nat → Nat
  vals : Nat → Option Nat

/-- Pointwise update of a function map. -/
def updF {α : Type} (f : Nat → α) (k : Nat) (v : α) : Nat → α :=
  fun i => if i = k then v else f i

@[simp] theorem updF_same {α : Type} (f : Nat → α) (k : Nat) (v : α) :
    updF f k v k = v := by
  simp [updF]

@[simp] theorem updF_other {α : Type} (f : Nat → α) (k : Nat) (v : α)
    (i : Nat) (h : i ≠ k) : updF f k v i = f i := by
  simp [updF, h]

/-- Predicate `event::pending`. -/
def pending (e : Nat) (w : World) : Bool :=
  (w.evs e).state = .pending

/-- Predicate `event::processed`. -/
def processed (e : Nat) (w : World) : Bool :=
  (w.evs e).state = .processed

/-- Predicate `event::triggered` (true for triggered and processed). -/
def triggered (e : Nat) (w : World) : Bool :=
  decide ((w.evs e).state = .triggered) || processed e w

/-- Predicate `event::aborted`. -/
def aborted (e : Nat) (w : World) : Bool :=
  (w.evs e).state = .aborted

/-- `simulation::schedule`: push a heap entry at `now() + delay` with the
fresh id `next_id_`, then increment `next_id_`.  The source asserts
`delay >= 0`; theorems carry that as a hypothesis where needed. -/
def schedule (e : Nat) (delay : Int) (w : World) : World :=
  { w with heap := ⟨w.now_ + delay, w.nextId, e⟩ :: w.heap,
           nextId := w.nextId + 1 }

/-- `event::trigger`: if the event is not pending, nothing is done;
otherwise schedule it at the current time and set its state to
triggered. -/
def trigger (e : Nat) (w : World) : World :=
  if pending e w then
    let w1 := schedule e 0 w
    { w1 with evs := updF w1.evs e { w1.evs e with state := .triggered } }
  else w

/-- `event::abort`: if the event is not pending, nothing is done;
otherwise set the state to aborted, clear the callbacks, and destroy
every awaiting coroutine (destruction has no scheduler effect). -/
def abort (e : Nat) (w : World) : World :=
  if pending e w then
    { w with evs := updF w.evs e { state := .aborted, promises := [], cbs := [] } }
  else w

/-- `event::add_callback`: discarded on processed or aborted events,
otherwise appended to the ordered callback list. -/
def add_callback (cb : Cb) (e : Nat) (w : World) : World :=
  if processed e w || aborted e w then w
  else { w with evs := updF w.evs e ({ w.evs e with cbs := (w.evs e).cbs ++ [cb] }) }

/-- `event::await_suspend`: on an aborted event the suspended coroutine
frame is destroyed at once (the returned flag) and nothing is
registered; otherwise the promise is appended to the observer list. -/
def await_suspend (p : Prom) (e : Nat) (w : World) : World × Bool :=
  if aborted e w then (w, true)
  else ({ w with evs := updF w.evs e ({ w.evs e with promises := (w.evs e).promises ++ [p] }) }, false)

/-- `value_event::set_value`: store the payload in the shared slot. -/
def set_value (e : Nat) (v : Nat) (w : World) : World :=
  { w with vals := updF w.vals e (some v) }

/-- `value_event::trigger(args...)`: if the event is not pending nothing
is done; otherwise the payload is set and `event::trigger` runs.  The
result is `none` exactly when an internal assertion would fail; the only
assertion in the source (`assert(data_)`) cannot fail in this model, so
the embedding never returns `none`. -/
def value_trigger (e : Nat) (v : Nat) (w : World) : Option World :=
  if pending e w then some (trigger e (set_value e v w))
  else some w

/-- Execute one scheduler-visible effect of a resumed coroutine. -/
def runWAct (a : WAct) (w : World) : World :=
  match a with
  | .triggerA e => trigger e w
  | .scheduleA e d => schedule e (Int.ofNat d) w
  | .abortA e => abort e w

/-- Execute the effects of a resumed coroutine in order. -/
def runActs (l : List WAct) (w : World) : World :=
  l.foldl (fun acc a => runWAct a acc) w

/-- Execute one combinator callback (`any_of` / `all_of` closures). -/
def runCb (cb : Cb) (w : World) : World :=
  match cb with
  | .anyOfCb t => trigger t w
  | .allOfCb n t =>
      let c := w.counters n - 1
      let w1 := { w with counters := updF w.counters n c }
      if c = 0 then trigger t w1 else w1

/-- Notification delivered while an event is processed: a promise
resumed, a promise destroyed (its process was aborted), or a callback
invoked with a reference to the event. -/
inductive Note where
  | resume (pid : Nat)
  | destroy (pid : Nat)
  | call (arg : Nat) (cb : Cb)
deriving DecidableEq, Repr

/-- `event::process`: on a processed or aborted event nothing is done.
Otherwise the state becomes processed, the observer list is swapped out
and each promise is destroyed (if its process was aborted) or resumed,
then every callback is invoked with a reference to this event and the
callback list is cleared.  The second component is the ordered
notification trace. -/
def process (e : Nat) (w : World) : World × List Note :=
  let d := w.evs e
  if processed e w || aborted e w then (w, [])
  else
    let w1 := { w with evs := updF w.evs e { d with state := .processed, promises := [] } }
    let w2 := d.promises.foldl
      (fun acc p => if p.abortedP then acc else runActs p.acts acc) w1
    let w3 := d.cbs.foldl (fun acc cb => runCb cb acc) w2
    ({ w3 with evs := updF w3.evs e { w3.evs e with cbs := [] } },
     d.promises.map (fun p => if p.abortedP then Note.destroy p.pid else Note.resume p.pid)
       ++ d.cbs.map (Note.call e))

/-- Minimum extraction from the scheduler heap: returns the entry that
`std::priority_queue` with `std::greater` exposes as `top()` (the
minimum under `scheduled_event::operator>`) together with the rest. -/
def popMin : List Entry → Option (Entry × List Entry)
  | [] => none
  | e :: rest =>
    match popMin rest with
    | none => some (e, [])
    | some (m, rest') => if Entry.gtE e m then some (m, e :: rest') else some (e, rest)

/-- `simulation::step`: pop the earliest scheduled entry, set `now_` to
its time and process its event.  The source performs no emptiness
check: calling `top()` / `pop()` on an empty `std::priority_queue` has
no defined result, so on an empty heap the function produces `none`
(no defined result); the code raises no error of any kind there. -/
def step (w : World) : Option World :=
  match popMin w.heap with
  | none => none
  | some (m, rest) => some (process m.ev { w with heap := rest, now_ := m.time }).1

/-- `simulation::run_until`: step while the next scheduled entry is
strictly earlier than the target, then set `now_` to the target
unconditionally.  `fuel` bounds the number of iterations; `none` means
the fuel ran out.  The popped entries are returned in order. -/
def run_until (fuel : Nat) (target : Int) (w : World) : Option (World × List Entry) :=
  match fuel with
  | 0 => none
  | fuel + 1 =>
    match popMin w.heap with
    | none => some ({ w with now_ := target }, [])
    | some (m, rest) =>
      if m.time < target then
        match run_until fuel target (process m.ev { w with heap := rest, now_ := m.time }).1 with
        | none => none
        | some (w2, tr) => some (w2, m :: tr)
      else some ({ w with now_ := target }, [])

/-- `simulation::run` (step until no more events are scheduled),
truncated at `fuel` steps; returns the final state and the entries
popped in order. -/
def runTrace (fuel : Nat) (w : World) : World × List Entry :=
  match fuel with
  | 0 => (w, [])
  | fuel + 1 =>
    match popMin w.heap with
    | none => (w, [])
    | some (m, rest) =>
      let r := runTrace fuel (process m.ev { w with heap := rest, now_ := m.time }).1
      (r.1, m :: r.2)

/-- `simulation::event()`: allocate a fresh pending event. -/
def newEvent (w : World) : Nat × World :=
  (w.nextEv, { w with nextEv := w.nextEv + 1,
                      evs := updF w.evs w.nextEv default })

/-- Allocation of a shared `n_ptr` counter (`std::make_shared<size_t>(n)`). -/
def newCounter (n : Nat) (w : World) : Nat × World :=
  (w.nextCtr, { w with nextCtr := w.nextCtr + 1,
                       counters := updF w.counters w.nextCtr n })

/-- `simulation::timeout`: a fresh pending event already scheduled at
`now + delay`. -/
def timeout (delay : Int) (w : World) : Nat × World :=
  let r := newEvent w
  (r.1, schedule r.1 delay r.2)

/-- Vector-based `simulation::any_of` (`simcpp20/simcpp20.hpp`): if any
given event is processed return `timeout(0)`; otherwise create a fresh
event and register a triggering callback on every given event. -/
def any_of (evs : List Nat) (w : World) : Nat × World :=
  if evs.any (fun e => processed e w) then timeout 0 w
  else
    let r := newEvent w
    (r.1, evs.foldl (fun acc e => add_callback (.anyOfCb r.1) e acc) r.2)

/-- Vector-based `simulation::all_of` (`simcpp20/simcpp20.hpp`): count
the given events that are not yet processed; if none remain return
`timeout(0)`, otherwise create a fresh event and a shared counter and
register a decrementing callback on every given event. -/
def all_of (evs : List Nat) (w : World) : Nat × World :=
  let n := evs.length - evs.countP (fun e => processed e w)
  if n = 0 then timeout 0 w
  else
    let r := newEvent w
    let rc := newCounter n r.2
    (r.1, evs.foldl (fun acc e => add_callback (.allOfCb rc.1 r.1) e acc) rc.2)

/-- Base case of the variadic `simulation::any_of_internal`
(`include/fschuetz04/simcpp20/simulation.hpp`): if the consumed event is
processed, trigger the output event at once; otherwise register a
triggering callback on it. -/
def any_of_internal (out : Nat) (cur : Nat) (w : World) : World :=
  if processed cur w then trigger out w
  else add_callback (.anyOfCb out) cur w

/-- Base case of the variadic `simulation::all_of_internal`
(`include/fschuetz04/simcpp20/simulation.hpp`): if the consumed event is
not processed, increment the shared counter and register a decrementing
callback on it; a processed event contributes nothing. -/
def all_of_internal (out : Nat) (ctr : Nat) (cur : Nat) (w : World) : World :=
  if processed cur w then w
  else add_callback (.allOfCb ctr out) cur
        { w with counters := updF w.counters ctr (w.counters ctr + 1) }

/-- Variadic `simulation::all_of`
(`include/fschuetz04/simcpp20/simulation.hpp` lines 107-110): allocate
the shared counter at zero, create the output event, and fold
`all_of_internal` over the inputs.  No other scheduling happens. -/
def all_of_var (evs : List Nat) (w : World) : Nat × World :=
  let rc := newCounter 0 w
  let r := newEvent rc.2
  (r.1, evs.foldl (fun acc e => all_of_internal r.1 rc.1 e acc) r.2)

/-! ### Order lemmas for heap entries -/

theorem Entry.leE_refl (a : Entry) : Entry.leE a a :=
  Or.inr ⟨rfl, le_refl _⟩

theorem Entry.leE_trans {a b c : Entry} (h1 : Entry.leE a b) (h2 : Entry.leE b c) :
    Entry.leE a c := by
  rcases h1 with h1 | ⟨h1t, h1i⟩
  · rcases h2 with h2 | ⟨h2t, _⟩
    · exact Or.inl (lt_trans h1 h2)
    · exact Or.inl (h2t ▸ h1)
  · rcases h2 with h2 | ⟨h2t, h2i⟩
    · exact Or.inl (h1t ▸ h2)
    · exact Or.inr ⟨h1t.trans h2t, le_trans h1i h2i⟩

theorem Entry.leE_of_gtE_eq_false {a b : Entry} (h : Entry.gtE a b = false) :
    Entry.leE a b := by
  unfold Entry.gtE at h
  by_cases ht : a.time = b.time
  · simp [ht] at h
    exact Or.inr ⟨ht, Nat.le_of_not_lt (by simpa using h)⟩
  · simp [ht] at h
    exact Or.inl (lt_of_le_of_ne (by simpa using h) ht)

theorem Entry.leE_of_gtE_eq_true {a b : Entry} (h : Entry.gtE a b = true) :
    Entry.leE b a := by
  unfold Entry.gtE at h
  by_cases ht : a.time = b.time
  · simp [ht] at h
    exact Or.inr ⟨ht.symm, Nat.le_of_lt h⟩
  · simp [ht] at h
    exact Or.inl h

theorem Entry.ltE_of_leE_of_ne_id {a b : Entry} (h : Entry.leE a b)
    (hne : a.id ≠ b.id) : Entry.ltE a b := by
  rcases h with h | ⟨ht, hi⟩
  · exact Or.inl h
  · exact Or.inr ⟨ht, lt_of_le_of_ne hi hne⟩

theorem Entry.leE_time {a b : Entry} (h : Entry.leE a b) : a.time ≤ b.time := by
  rcases h with h | ⟨ht, _⟩
  · exact le_of_lt h
  · exact le_of_eq ht

theorem Entry.ltE_time {a b : Entry} (h : Entry.ltE a b) : a.time ≤ b.time := by
  rcases h with h | ⟨ht, _⟩
  · exact le_of_lt h
  · exact le_of_eq ht

theorem Entry.leE_of_ltE {a b : Entry} (h : Entry.ltE a b) : Entry.leE a b := by
  rcases h with h | ⟨ht, hi⟩
  · exact Or.inl h
  · exact Or.inr ⟨ht, le_of_lt hi⟩

/-! ### popMin lemmas -/

theorem popMin_eq_none_iff (l : List Entry) : popMin l = none ↔ l = [] := by
  cases l with
  | nil => simp [popMin]
  | cons e rest =>
    simp only [popMin]
    cases h : popMin rest with
    | none => simp
    | some p =>
      by_cases hg : Entry.gtE e p.1 <;> simp [hg]

theorem popMin_perm {l : List Entry} {m : Entry} {r : List Entry}
    (h : popMin l = some (m, r)) : List.Perm (m :: r) l := by
  induction l generalizing m r with
  | nil => simp [popMin] at h
  | cons e rest ih =>
    simp only [popMin] at h
    cases hr : popMin rest with
    | none =>
      rw [hr] at h
      have hnil : rest = [] := (popMin_eq_none_iff rest).mp hr
      simp at h
      subst hnil
      simp [h.1, h.2]
    | some p =>
      rw [hr] at h
      obtain ⟨m1, rest1⟩ := p
      have hperm : List.Perm (m1 :: rest1) rest := ih hr
      by_cases hg : Entry.gtE e m1
      · simp [hg] at h
        obtain ⟨hm, hrr⟩ := h
        subst hm
        subst hrr
        exact (List.Perm.swap e m1 rest1).trans (hperm.cons e)
      · simp [hg] at h
        obtain ⟨hm, hrr⟩ := h
        subst hm
        subst hrr
        exact List.Perm.refl _

theorem popMin_min {l : List Entry} {m : Entry} {r : List Entry}
    (h : popMin l = some (m, r)) : ∀ x ∈ l, Entry.leE m x := by
  induction l generalizing m r with
  | nil => simp [popMin] at h
  | cons e rest ih =>
    simp only [popMin] at h
    cases hr : popMin rest with
    | none =>
      rw [hr] at h
      have hnil : rest = [] := (popMin_eq_none_iff rest).mp hr
      simp at h
      subst hnil
      intro x hx
      simp at hx
      subst hx
      exact h.1 ▸ Entry.leE_refl x
    | some p =>
      rw [hr] at h
      obtain ⟨m1, rest1⟩ := p
      have hmin : ∀ x ∈ rest, Entry.leE m1 x := ih hr
      by_cases hg : Entry.gtE e m1
      · simp [hg] at h
        obtain ⟨hm, _⟩ := h
        subst hm
        intro x hx
        rcases List.mem_cons.mp hx with hx | hx
        · exact hx ▸ Entry.leE_of_gtE_eq_true hg
        · exact hmin x hx
      · simp [hg] at h
        obtain ⟨hm, _⟩ := h
        subst hm
        intro x hx
        rcases List.mem_cons.mp hx with hx | hx
        · exact hx ▸ Entry.leE_refl x
        · exact Entry.leE_trans (Entry.leE_of_gtE_eq_false (by simpa using hg)) (hmin x hx)

theorem popMin_mem {l : List Entry} {m : Entry} {r : List Entry}
    (h : popMin l = some (m, r)) : m ∈ l :=
  (popMin_perm h).mem_iff.mp (List.mem_cons_self m r)

theorem popMin_rest_mem {l : List Entry} {m : Entry} {r : List Entry}
    (h : popMin l = some (m, r)) : ∀ x ∈ r, x ∈ l := by
  intro x hx
  exact (popMin_perm h).mem_iff.mp (List.mem_cons_of_mem m hx)

/-! ### Evolution of the scheduler state

Every mutation the kernel performs during a step keeps the current time,
never decreases the id counter, and only adds heap entries scheduled at
or after the current time with fresh ids.  `HInv` is the heap sanity
invariant (all ids were assigned by the counter, and are pairwise
distinct). -/

def HInv (w : World) : Prop :=
  (∀ x ∈ w.heap, x.id < w.nextId) ∧ w.heap.Pairwise (fun a b => a.id ≠ b.id)

def Evolves (w w2 : World) : Prop :=
  w2.now_ = w.now_ ∧ w.nextId ≤ w2.nextId ∧
  (∀ x ∈ w2.heap, x ∈ w.heap ∨ (w.now_ ≤ x.time ∧ w.nextId ≤ x.id)) ∧
  (HInv w → HInv w2)

theorem evolves_rfl (w : World) : Evolves w w :=
  ⟨Eq.refl _, le_refl _, fun _ hx => Or.inl hx, id⟩

theorem Evolves.trans {w1 w2 w3 : World} (h12 : Evolves w1 w2)
    (h23 : Evolves w2 w3) : Evolves w1 w3 := by
  obtain ⟨hn12, hi12, hh12, hv12⟩ := h12
  obtain ⟨hn23, hi23, hh23, hv23⟩ := h23
  refine ⟨hn23.trans hn12, le_trans hi12 hi23, ?_, fun h => hv23 (hv12 h)⟩
  intro x hx
  rcases hh23 x hx with hx2 | ⟨ht, hi⟩
  · exact hh12 x hx2
  · right
    refine ⟨?_, le_trans hi12 hi⟩
    rw [← hn12]
    exact ht

theorem evolves_evs (w : World) (f : Nat → EvData) :
    Evolves w { w with evs := f } :=
  ⟨rfl, le_refl _, fun _ hx => Or.inl hx, id⟩

theorem evolves_counters (w : World) (f : Nat → Nat) :
    Evolves w { w with counters := f } :=
  ⟨rfl, le_refl _, fun _ hx => Or.inl hx, id⟩

theorem evolves_schedule (e : Nat) (delay : Int) (w : World) (hd : 0 ≤ delay) :
    Evolves w (schedule e delay w) := by
  simp only [schedule]
  refine ⟨rfl, Nat.le_succ _, ?_, ?_⟩
  · intro x hx
    rcases List.mem_cons.mp hx with hx | hx
    · subst hx
      exact Or.inr ⟨le_add_of_nonneg_right hd, le_refl _⟩
    · exact Or.inl hx
  · rintro ⟨hid, hpw⟩
    refine ⟨?_, ?_⟩
    · intro x hx
      rcases List.mem_cons.mp hx with hx | hx
      · subst hx; exact Nat.lt_succ_self _
      · exact Nat.lt_succ_of_lt (hid x hx)
    · exact List.pairwise_cons.mpr ⟨fun y hy => (Nat.ne_of_lt (hid y hy)).symm, hpw⟩

theorem evolves_trigger (e : Nat) (w : World) : Evolves w (trigger e w) := by
  by_cases h : pending e w
  · simp only [trigger, h, if_true]
    exact Evolves.trans (evolves_schedule e 0 w (le_refl 0)) (evolves_evs _ _)
  · simp only [trigger, h, if_false]
    exact evolves_rfl w

theorem evolves_abort (e : Nat) (w : World) : Evolves w (abort e w) := by
  by_cases h : pending e w
  · simp only [abort, h, if_true]
    exact evolves_evs _ _
  · simp only [abort, h, if_false]
    exact evolves_rfl w

theorem evolves_add_callback (cb : Cb) (e : Nat) (w : World) :
    Evolves w (add_callback cb e w) := by
  by_cases h : (processed e w || aborted e w : Bool)
  · simp only [add_callback, h, if_true]
    exact evolves_rfl w
  · simp only [add_callback, h, if_false]
    exact evolves_evs _ _

theorem evolves_runWAct (a : WAct) (w : World) : Evolves w (runWAct a w) := by
  cases a with
  | triggerA e => exact evolves_trigger e w
  | scheduleA e d => exact evolves_schedule e (Int.ofNat d) w (Int.natCast_nonneg d)
  | abortA e => exact evolves_abort e w

theorem evolves_foldl {α : Type} (g : World → α → World)
    (hg : ∀ w a, Evolves w (g w a)) :
    ∀ (l : List α) (w : World), Evolves w (l.foldl g w) := by
  intro l
  induction l with
  | nil => intro w; exact evolves_rfl w
  | cons a l ih => intro w; exact Evolves.trans (hg w a) (ih (g w a))

theorem evolves_runActs (l : List WAct) (w : World) : Evolves w (runActs l w) :=
  evolves_foldl _ (fun w a => evolves_runWAct a w) l w

theorem evolves_runCb (cb : Cb) (w : World) : Evolves w (runCb cb w) := by
  cases cb with
  | anyOfCb t => exact evolves_trigger t w
  | allOfCb n t =>
    simp only [runCb]
    by_cases hc : w.counters n - 1 = 0
    · simp only [hc, if_true]
      exact Evolves.trans (evolves_counters w _) (evolves_trigger t _)
    · simp only [hc, if_false]
      exact evolves_counters w _

theorem evolves_resume (w : World) (p : Prom) :
    Evolves w (if p.abortedP then w else runActs p.acts w) := by
  by_cases hp : p.abortedP
  · simp only [hp, if_true]; exact evolves_rfl w
  · simp only [hp, if_false]; exact evolves_runActs p.acts w

theorem evolves_evs_trans {w w2 : World} (h : Evolves w w2) (f : Nat → EvData) :
    Evolves w { w2 with evs := f } :=
  Evolves.trans h (evolves_evs w2 f)

theorem evolves_foldl_trans {α : Type} {w w2 : World} (h : Evolves w w2)
    (g : World → α → World) (hg : ∀ u a, Evolves u (g u a)) (l : List α) :
    Evolves w (l.foldl g w2) :=
  Evolves.trans h (evolves_foldl g hg l w2)

theorem evolves_process (e : Nat) (w : World) : Evolves w (process e w).1 := by
  by_cases h : (processed e w || aborted e w : Bool)
  · simp only [process, h, if_true]
    exact evolves_rfl w
  · simp only [process, h, if_false]
    exact evolves_evs_trans
      (evolves_foldl_trans
        (evolves_foldl_trans (evolves_evs w _) _ evolves_resume _)
        _ (fun u cb => evolves_runCb cb u) _) _

/-! ### Dequeue order of a run -/

theorem hinv_mid {w : World} {m : Entry} {rest : List Entry}
    (hinv : HInv w) (hpop : popMin w.heap = some (m, rest)) (t : Int) :
    HInv { w with heap := rest, now_ := t } := by
  obtain ⟨hid, hpw⟩ := hinv
  have hcons : (m :: rest).Pairwise (fun a b => a.id ≠ b.id) :=
    ((popMin_perm hpop).pairwise_iff (fun h => Ne.symm h)).mpr hpw
  exact ⟨fun x hx => hid x (popMin_rest_mem hpop x hx),
         (List.pairwise_cons.mp hcons).2⟩

theorem rest_ne_id {w : World} {m : Entry} {rest : List Entry}
    (hinv : HInv w) (hpop : popMin w.heap = some (m, rest)) :
    ∀ x ∈ rest, m.id ≠ x.id := by
  have hcons : (m :: rest).Pairwise (fun a b => a.id ≠ b.id) :=
    ((popMin_perm hpop).pairwise_iff (fun h => Ne.symm h)).mpr hinv.2
  exact (List.pairwise_cons.mp hcons).1

theorem runTrace_lb (fuel : Nat) :
    ∀ (w : World) (m : Entry), m.id < w.nextId →
      (∀ x ∈ w.heap, Entry.ltE m x) →
      ∀ y ∈ (runTrace fuel w).2, Entry.ltE m y := by
  induction fuel with
  | zero => intro w m _ _ y hy; simp [runTrace] at hy
  | succ fuel ih =>
    intro w m hmi hheap y hy
    simp only [runTrace] at hy
    cases hpop : popMin w.heap with
    | none => rw [hpop] at hy; simp at hy
    | some pr =>
      obtain ⟨m1, rest⟩ := pr
      rw [hpop] at hy
      simp only [List.mem_cons] at hy
      have hm1 : Entry.ltE m m1 := hheap m1 (popMin_mem hpop)
      rcases hy with hy | hy
      · exact hy ▸ hm1
      · obtain ⟨hnow, hnid, hhp, _⟩ :=
          evolves_process m1.ev { w with heap := rest, now_ := m1.time }
        refine ih _ m (lt_of_lt_of_le hmi hnid) ?_ y hy
        intro x hx
        rcases hhp x hx with hx2 | ⟨ht, hi⟩
        · exact hheap x (popMin_rest_mem hpop x hx2)
        · have htm : m.time ≤ x.time := le_trans (Entry.ltE_time hm1) ht
          rcases lt_or_eq_of_le htm with htm | htm
          · exact Or.inl htm
          · exact Or.inr ⟨htm, lt_of_lt_of_le hmi hi⟩

theorem runTrace_sorted (fuel : Nat) :
    ∀ w : World, HInv w → List.Pairwise Entry.ltE (runTrace fuel w).2 := by
  induction fuel with
  | zero => intro w _; simp [runTrace]
  | succ fuel ih =>
    intro w hinv
    simp only [runTrace]
    cases hpop : popMin w.heap with
    | none => simp
    | some pr =>
      obtain ⟨m1, rest⟩ := pr
      simp only
      have hinvmid : HInv { w with heap := rest, now_ := m1.time } :=
        hinv_mid hinv hpop m1.time
      obtain ⟨hnow, hnid, hhp, hpres⟩ :=
        evolves_process m1.ev { w with heap := rest, now_ := m1.time }
      have hm1i : m1.id < w.nextId := hinv.1 m1 (popMin_mem hpop)
      refine List.pairwise_cons.mpr ⟨?_, ih _ (hpres hinvmid)⟩
      refine runTrace_lb fuel _ m1 (lt_of_lt_of_le hm1i hnid) ?_
      intro x hx
      rcases hhp x hx with hx2 | ⟨ht, hi⟩
      · exact Entry.ltE_of_leE_of_ne_id
          (popMin_min hpop x (popMin_rest_mem hpop x hx2))
          (rest_ne_id hinv hpop x hx2)
      · rcases lt_or_eq_of_le ht with ht | ht
        · exact Or.inl ht
        · exact Or.inr ⟨ht, lt_of_lt_of_le hm1i hi⟩

/-! ### run_until boundary -/

theorem run_until_facts (fuel : Nat) :
    ∀ (w : World) (target : Int) (w2 : World) (tr : List Entry),
      run_until fuel target w = some (w2, tr) →
      w2.now_ = target ∧ (∀ m ∈ tr, m.time < target) ∧
        (∀ x ∈ w2.heap, target ≤ x.time) := by
  induction fuel with
  | zero => intro w target w2 tr h; simp [run_until] at h
  | succ fuel ih =>
    intro w target w2 tr h
    simp only [run_until] at h
    cases hpop : popMin w.heap with
    | none =>
      rw [hpop] at h
      simp only [Option.some.injEq, Prod.mk.injEq] at h
      obtain ⟨hw2, htr⟩ := h
      subst hw2
      subst htr
      have hnil : w.heap = [] := (popMin_eq_none_iff w.heap).mp hpop
      refine ⟨rfl, by simp, ?_⟩
      intro x hx
      simp [hnil] at hx
    | some pr =>
      obtain ⟨m, rest⟩ := pr
      rw [hpop] at h
      by_cases hlt : m.time < target
      · simp only [if_pos hlt] at h
        cases hrec : run_until fuel target
            (process m.ev { w with heap := rest, now_ := m.time }).1 with
        | none => rw [hrec] at h; exact absurd h (by simp)
        | some pr2 =>
          obtain ⟨w3, tr3⟩ := pr2
          rw [hrec] at h
          simp only [Option.some.injEq, Prod.mk.injEq] at h
          obtain ⟨hw2, htr⟩ := h
          subst hw2
          subst htr
          obtain ⟨ha, hb, hc⟩ := ih _ _ _ _ hrec
          refine ⟨ha, ?_, hc⟩
          intro x hx
          rcases List.mem_cons.mp hx with hx | hx
          · exact hx ▸ hlt
          · exact hb x hx
      · simp only [if_neg hlt] at h
        simp only [Option.some.injEq, Prod.mk.injEq] at h
        obtain ⟨hw2, htr⟩ := h
        subst hw2
        subst htr
        refine ⟨rfl, by simp, ?_⟩
        intro x hx
        have hle : Entry.leE m x := popMin_min hpop x hx
        exact le_trans (le_of_not_lt hlt) (Entry.leE_time hle)

/-! ### A processed event is left alone by the effects run during process -/

theorem trigger_evs_pres {w : World} {e : Nat}
    (h : (w.evs e).state = .processed) (t : Nat) :
    (trigger t w).evs e = w.evs e := by
  by_cases hp : pending t w
  · have hpt : (w.evs t).state = .pending := by simpa [pending] using hp
    by_cases het : e = t
    · subst het
      rw [h] at hpt
      exact absurd hpt (by simp)
    · simp only [trigger, hp, if_true]
      exact updF_other _ _ _ _ het
  · simp [trigger, hp]

theorem abort_evs_pres {w : World} {e : Nat}
    (h : (w.evs e).state = .processed) (t : Nat) :
    (abort t w).evs e = w.evs e := by
  by_cases hp : pending t w
  · have hpt : (w.evs t).state = .pending := by simpa [pending] using hp
    by_cases het : e = t
    · subst het
      rw [h] at hpt
      exact absurd hpt (by simp)
    · simp only [abort, hp, if_true]
      exact updF_other _ _ _ _ het
  · simp [abort, hp]

theorem runWAct_evs_pres {w : World} {e : Nat}
    (h : (w.evs e).state = .processed) (a : WAct) :
    (runWAct a w).evs e = w.evs e := by
  cases a with
  | triggerA t => exact trigger_evs_pres h t
  | scheduleA t d => rfl
  | abortA t => exact abort_evs_pres h t

theorem foldl_evs_pres {α : Type} (g : World → α → World) (e : Nat)
    (hg : ∀ (w : World) (a : α), (w.evs e).state = .processed →
      (g w a).evs e = w.evs e) :
    ∀ (l : List α) (w : World), (w.evs e).state = .processed →
      (l.foldl g w).evs e = w.evs e := by
  intro l
  induction l with
  | nil => intro w _; rfl
  | cons a l ih =>
    intro w hw
    have hga : (g w a).evs e = w.evs e := hg w a hw
    have : ((g w a).evs e).state = .processed := by rw [hga]; exact hw
    calc (List.foldl g (g w a) l).evs e = (g w a).evs e := ih (g w a) this
      _ = w.evs e := hga

theorem runActs_evs_pres {w : World} {e : Nat}
    (h : (w.evs e).state = .processed) (l : List WAct) :
    (runActs l w).evs e = w.evs e :=
  foldl_evs_pres _ e (fun _ a hw => runWAct_evs_pres hw a) l w h

theorem runCb_evs_pres {w : World} {e : Nat}
    (h : (w.evs e).state = .processed) (cb : Cb) :
    (runCb cb w).evs e = w.evs e := by
  cases cb with
  | anyOfCb t => exact trigger_evs_pres h t
  | allOfCb n t =>
    simp only [runCb]
    by_cases hc : w.counters n - 1 = 0
    · simp only [hc, if_true]
      exact @trigger_evs_pres { w with counters := updF w.counters n 0 } e h t
    · simp only [hc, if_false]

theorem evs_update_at (a1 : Int) (a2 : List Entry) (a3 a4 a5 : Nat)
    (f : Nat → EvData) (a6 : Nat → Nat) (a7 : Nat → Option Nat) (k : Nat) :
    (World.mk a1 a2 a3 a4 a5 f a6 a7).evs k = f k := rfl

theorem process_evs_at (w : World) (e : Nat)
    (h : ¬(processed e w || aborted e w : Bool)) :
    (process e w).1.evs e = ⟨.processed, [], []⟩ ∧
    (process e w).2 =
      (w.evs e).promises.map
        (fun p => if p.abortedP then Note.destroy p.pid else Note.resume p.pid)
        ++ (w.evs e).cbs.map (Note.call e) := by
  simp only [process, h, Bool.false_eq_true, if_false]
  refine ⟨?_, trivial⟩
  have hw1 : (({ w with evs := updF w.evs e ⟨.processed, [], (w.evs e).cbs⟩ } : World).evs e).state
      = .processed := by
    simp only [evs_update_at, updF_same]
  have h2 := foldl_evs_pres
    (fun acc p => if p.abortedP then acc else runActs p.acts acc) e
    (fun u p hu => by
      by_cases hp : p.abortedP
      · simp only [hp, if_true]
      · simp only [hp, if_false]; exact runActs_evs_pres hu p.acts)
    (w.evs e).promises _ hw1
  have h2s : ((((w.evs e).promises.foldl
      (fun acc p => if p.abortedP then acc else runActs p.acts acc)
      ({ w with evs := updF w.evs e ⟨.processed, [], (w.evs e).cbs⟩ } : World)).evs e)).state
      = .processed := by
    rw [h2]; exact hw1
  have h3 := foldl_evs_pres (fun acc cb => runCb cb acc) e
    (fun u cb hu => runCb_evs_pres hu cb) (w.evs e).cbs _ h2s
  simp only [evs_update_at, updF_same]
  rw [h3, h2]
  simp only [evs_update_at, updF_same]

/-! ### Concrete worlds used by witnesses and counterexamples -/

/-- A world with an empty heap and all events pending. -/
def wEmpty : World :=
  ⟨0, [], 0, 0, 0, fun _ => default, fun _ => 0, fun _ => none⟩

/-- A world with two scheduled entries (times 3 and 1) and pending events. -/
def wTwo : World :=
  ⟨0, [⟨3, 0, 0⟩, ⟨1, 1, 1⟩], 2, 2, 0, fun _ => default, fun _ => 0, fun _ => none⟩

/-- A world whose event 0 is triggered and awaited by one promise whose
process has been aborted. -/
def wAbortedProm : World :=
  ⟨0, [], 0, 1, 0,
   fun i => if i = 0 then ⟨.triggered, [⟨7, true, []⟩], []⟩ else default,
   fun _ => 0, fun _ => none⟩

/-- A world whose event 0 is triggered (used for no-op and value claims). -/
def wTriggered : World :=
  ⟨0, [], 0, 1, 0,
   fun i => if i = 0 then ⟨.triggered, [], []⟩ else default,
   fun _ => 0, fun _ => none⟩

/-- A world whose event 0 is aborted. -/
def wAborted : World :=
  ⟨0, [], 0, 1, 0,
   fun i => if i = 0 then ⟨.aborted, [], []⟩ else default,
   fun _ => 0, fun _ => none⟩

/-- A world whose event 0 is already processed. -/
def wProcessed : World :=
  ⟨0, [], 0, 1, 0,
   fun i => if i = 0 then ⟨.processed, [], []⟩ else default,
   fun _ => 0, fun _ => none⟩

/-! ### C6: step has no emptiness check -/

/-- C6: on an empty heap `step` produces no defined result at all
(`none`, the unchecked `top()` on an empty queue) — in particular it
raises no QueueEmpty error, contrary to the claim: the code has no
error channel.  On a non-empty heap it pops the earliest entry (the
minimum of the heap order), sets `now_` to that entry's time and calls
the popped event's `process`, as the claim states. -/
theorem step_spec (w : World) :
    (w.heap = [] → step w = none) ∧
    (∀ m rest, popMin w.heap = some (m, rest) →
      step w = some (process m.ev { w with heap := rest, now_ := m.time }).1 ∧
      ∀ x ∈ w.heap, Entry.leE m x) := by
  constructor
  · intro h
    simp [step, h, popMin]
  · intro m rest hpop
    refine ⟨?_, popMin_min hpop⟩
    simp [step, hpop]

/-- Witness for `step_spec`: on a concrete empty heap step has no
defined result (and no error value exists to be raised), and on a
concrete two-entry heap it pops the entry with the smaller time. -/
theorem step_spec_witness :
    (wEmpty.heap = [] ∧ step wEmpty = none) ∧
    (popMin wTwo.heap = some (⟨1, 1, 1⟩, [⟨3, 0, 0⟩]) ∧
     step wTwo = some (process 1 { wTwo with heap := [⟨3, 0, 0⟩], now_ := 1 }).1 ∧
     ∀ x ∈ wTwo.heap, Entry.leE ⟨1, 1, 1⟩ x) :=
  ⟨⟨rfl, (step_spec wEmpty).1 rfl⟩,
   ⟨by decide, (step_spec wTwo).2 ⟨1, 1, 1⟩ [⟨3, 0, 0⟩] (by decide)⟩⟩

/-! ### C8: trigger and abort are silent no-ops on non-pending events -/

/-- C8: on an event that is not pending, `trigger` and `abort` leave the
whole world unchanged (so its state, observer list, callback list, all
predicates and the scheduler heap are unchanged), and repeated calls
are idempotent. -/
theorem trigger_abort_noop (w : World) (e : Nat)
    (h : (w.evs e).state ≠ .pending) :
    trigger e w = w ∧ abort e w = w ∧
    trigger e (trigger e w) = trigger e w ∧
    abort e (abort e w) = abort e w := by
  have hp : pending e w = false := by simp [pending, h]
  have h1 : trigger e w = w := by simp [trigger, hp]
  have h2 : abort e w = w := by simp [abort, hp]
  refine ⟨h1, h2, ?_, ?_⟩
  · rw [h1]; exact h1
  · rw [h2]; exact h2

/-- Witness for `trigger_abort_noop` at a concrete triggered event. -/
theorem trigger_abort_noop_witness :
    (wTriggered.evs 0).state ≠ .pending ∧
    (trigger 0 wTriggered = wTriggered ∧ abort 0 wTriggered = wTriggered ∧
     trigger 0 (trigger 0 wTriggered) = trigger 0 wTriggered ∧
     abort 0 (abort 0 wTriggered) = abort 0 wTriggered) :=
  ⟨by decide, trigger_abort_noop wTriggered 0 (by decide)⟩

/-! ### C9: await_suspend on an aborted event destroys the frame -/

/-- C9: suspending a coroutine on an aborted event destroys the frame
immediately (second component `true`) and registers nothing: the world
(observer and callback lists included) is unchanged, and processing the
event delivers no notifications, so the coroutine is never resumed. -/
theorem await_suspend_aborted (w : World) (e : Nat) (p : Prom)
    (h : (w.evs e).state = .aborted) :
    await_suspend p e w = (w, true) ∧ (process e w).2 = [] := by
  have ha : aborted e w = true := by simp [aborted, h]
  constructor
  · simp [await_suspend, ha]
  · simp [process, ha]

/-- Witness for `await_suspend_aborted` at a concrete aborted event. -/
theorem await_suspend_aborted_witness :
    (wAborted.evs 0).state = .aborted ∧
    (await_suspend ⟨9, false, []⟩ 0 wAborted = (wAborted, true) ∧
     (process 0 wAborted).2 = []) :=
  ⟨by decide, await_suspend_aborted wAborted 0 ⟨9, false, []⟩ (by decide)⟩

/-! ### C10: process destroys promises of aborted processes -/

/-- C10: when an event is processed, every awaiting promise whose own
process completion event has been aborted is destroyed, and such a
promise is never resumed by any `process` call (whatever the state of
the event). -/
theorem process_destroys_aborted (w : World) (e : Nat) (p : Prom)
    (hp : p ∈ (w.evs e).promises) (hab : p.abortedP = true)
    (huniq : ∀ q ∈ (w.evs e).promises, q.pid = p.pid → q.abortedP = true) :
    (((w.evs e).state = .pending ∨ (w.evs e).state = .triggered) →
      Note.destroy p.pid ∈ (process e w).2) ∧
    Note.resume p.pid ∉ (process e w).2 := by
  by_cases hg : (processed e w || aborted e w : Bool)
  · have hnil : (process e w).2 = [] := by simp [process, hg]
    constructor
    · intro hstate
      exfalso
      rcases hstate with hstate | hstate <;>
        simp [processed, aborted, hstate] at hg
    · rw [hnil]; simp
  · obtain ⟨_, htr⟩ := process_evs_at w e hg
    constructor
    · intro _
      rw [htr]
      apply List.mem_append_left
      have heq : Note.destroy p.pid =
          (fun q => if q.abortedP then Note.destroy q.pid else Note.resume q.pid) p := by
        simp [hab]
      rw [heq]
      exact List.mem_map_of_mem _ hp
    · rw [htr]
      intro hmem
      rcases List.mem_append.mp hmem with hmem | hmem
      · obtain ⟨q, hq, hqeq⟩ := List.mem_map.mp hmem
        by_cases hqa : q.abortedP
        · simp [hqa] at hqeq
        · simp [hqa] at hqeq
          exact hqa (huniq q hq hqeq)
      · obtain ⟨c, _, hceq⟩ := List.mem_map.mp hmem
        simp at hceq

/-- Witness for `process_destroys_aborted` at a concrete triggered event
with one aborted awaiting promise. -/
theorem process_destroys_aborted_witness :
    (⟨7, true, []⟩ ∈ (wAbortedProm.evs 0).promises ∧
     (⟨7, true, []⟩ : Prom).abortedP = true ∧
     (∀ q ∈ (wAbortedProm.evs 0).promises, q.pid = 7 → q.abortedP = true)) ∧
    ((((wAbortedProm.evs 0).state = .pending ∨
        (wAbortedProm.evs 0).state = .triggered) →
      Note.destroy 7 ∈ (process 0 wAbortedProm).2) ∧
     Note.resume 7 ∉ (process 0 wAbortedProm).2) :=
  ⟨⟨by decide, by decide, by decide⟩,
   process_destroys_aborted wAbortedProm 0 ⟨7, true, []⟩
     (by decide) (by decide) (by decide)⟩

/-! ### C7: value_event::trigger on a non-pending event -/

/-- C7 counterexample: on a concrete ValueEvent that is triggered (not
pending), `trigger(value)` does not fail with an assertion failure as
the claim states: it returns normally (`some`, where `none` would model
an assertion failure) and leaves the world completely unchanged. -/
theorem value_trigger_cex :
    (wTriggered.evs 0).state = .triggered ∧
    value_trigger 0 5 wTriggered = some wTriggered ∧
    value_trigger 0 5 wTriggered ≠ none := by
  refine ⟨by decide, ?_, ?_⟩
  · simp [value_trigger, pending, wTriggered]
  · simp [value_trigger, pending, wTriggered]

/-- C7 amended: `trigger(value)` on a pending ValueEvent sets the
payload and then behaves as `event::trigger` (payload stored, state
triggered, the event scheduled at the current time); on a non-pending
ValueEvent it is a silent no-op that returns normally with the world
unchanged (no assertion failure). -/
theorem value_trigger_spec (w : World) (e v : Nat) :
    ((w.evs e).state = .pending →
      value_trigger e v w = some (trigger e (set_value e v w)) ∧
      (trigger e (set_value e v w)).vals e = some v ∧
      ((trigger e (set_value e v w)).evs e).state = .triggered ∧
      (trigger e (set_value e v w)).heap = ⟨w.now_, w.nextId, e⟩ :: w.heap) ∧
    ((w.evs e).state ≠ .pending → value_trigger e v w = some w) := by
  constructor
  · intro h
    refine ⟨by simp [value_trigger, pending, h], ?_, ?_, ?_⟩
    · simp [trigger, set_value, schedule, pending, h]
    · simp [trigger, set_value, schedule, pending, h]
    · simp [trigger, set_value, schedule, pending, h]
  · intro h
    simp [value_trigger, pending, h]

/-- Witness for `value_trigger_spec`: both branches at concrete events
(a pending one in `wEmpty` and a triggered one in `wTriggered`). -/
theorem value_trigger_spec_witness :
    ((wEmpty.evs 0).state = .pending ∧
     (value_trigger 0 5 wEmpty = some (trigger 0 (set_value 0 5 wEmpty)) ∧
      (trigger 0 (set_value 0 5 wEmpty)).vals 0 = some 5 ∧
      ((trigger 0 (set_value 0 5 wEmpty)).evs 0).state = .triggered ∧
      (trigger 0 (set_value 0 5 wEmpty)).heap = ⟨0, 0, 0⟩ :: wEmpty.heap)) ∧
    ((wTriggered.evs 0).state ≠ .pending ∧
     value_trigger 0 5 wTriggered = some wTriggered) :=
  ⟨⟨by decide, (value_trigger_spec wEmpty 0 5).1 (by decide)⟩,
   ⟨by decide, (value_trigger_spec wTriggered 0 5).2 (by decide)⟩⟩

/-! ### C1: the notification order of process -/

/-- C1 counterexample: for a triggered event awaited by a promise whose
process has been aborted, `process` does not resume that promise — it
destroys it — so the notification trace is not the resume-then-call
trace the claim asserts for every awaiting coroutine. -/
theorem process_order_cex :
    (wAbortedProm.evs 0).state = .triggered ∧
    (process 0 wAbortedProm).2 = [Note.destroy 7] ∧
    (process 0 wAbortedProm).2 ≠
      (wAbortedProm.evs 0).promises.map (fun p => Note.resume p.pid)
        ++ (wAbortedProm.evs 0).cbs.map (Note.call 0) := by
  refine ⟨by decide, by decide, by decide⟩

/-- C1 amended: processing a pending or triggered event sets its state
to processed and notifies its observers in two phases in registration
order: each awaiting promise, in the order it suspended, is resumed if
its process is not aborted and destroyed otherwise; then every callback
is invoked with a reference to the event in the order it was added;
finally both the observer list and the callback list are empty. -/
theorem process_order (w : World) (e : Nat)
    (h : (w.evs e).state = .pending ∨ (w.evs e).state = .triggered) :
    ((process e w).1.evs e).state = .processed ∧
    (process e w).2 =
      (w.evs e).promises.map
        (fun p => if p.abortedP then Note.destroy p.pid else Note.resume p.pid)
        ++ (w.evs e).cbs.map (Note.call e) ∧
    ((process e w).1.evs e).promises = [] ∧
    ((process e w).1.evs e).cbs = [] := by
  have hg : ¬(processed e w || aborted e w : Bool) := by
    rcases h with h | h <;> simp [processed, aborted, h]
  obtain ⟨h1, h2⟩ := process_evs_at w e hg
  rw [h1]
  exact ⟨rfl, h2, rfl, rfl⟩

/-- A world for the C1 witness: event 0 is triggered with two awaiting
promises (one live, one with an aborted process) and two callbacks. -/
def wOrder : World :=
  ⟨0, [], 0, 3, 0,
   fun i => if i = 0 then
      ⟨.triggered, [⟨4, false, []⟩, ⟨7, true, []⟩], [.anyOfCb 1, .allOfCb 0 2]⟩
    else default,
   fun _ => 1, fun _ => none⟩

/-- Witness for `process_order` on a concrete triggered event. -/
theorem process_order_witness :
    ((wOrder.evs 0).state = .pending ∨ (wOrder.evs 0).state = .triggered) ∧
    (((process 0 wOrder).1.evs 0).state = .processed ∧
     (process 0 wOrder).2 =
       (wOrder.evs 0).promises.map
         (fun p => if p.abortedP then Note.destroy p.pid else Note.resume p.pid)
         ++ (wOrder.evs 0).cbs.map (Note.call 0) ∧
     ((process 0 wOrder).1.evs 0).promises = [] ∧
     ((process 0 wOrder).1.evs 0).cbs = []) :=
  ⟨by decide, process_order wOrder 0 (by decide)⟩

/-! ### C2: the run_until boundary -/

/-- C2: for a target at or after the current time, every entry that
`run_until` processes has a time strictly below the target, every entry
still scheduled afterwards (an entry at exactly the target included) has
a time at or after the target, and the current time is set to the target
unconditionally. -/
theorem run_until_boundary (fuel : Nat) (target : Int) (w : World)
    (_hnow : w.now_ ≤ target) :
    ∀ w2 tr, run_until fuel target w = some (w2, tr) →
      w2.now_ = target ∧ (∀ m ∈ tr, m.time < target) ∧
      ∀ x ∈ w2.heap, target ≤ x.time :=
  fun w2 tr h => run_until_facts fuel w target w2 tr h

/-- A world for the C2 witness: entries at times 1 and 5 for two
pending events; `run_until` with target 5 processes only the first. -/
def wRun : World :=
  ⟨0, [⟨1, 0, 0⟩, ⟨5, 1, 1⟩], 2, 2, 0, fun _ => default, fun _ => 0,
   fun _ => none⟩

/-- Witness for `run_until_boundary` on a concrete schedule with an
entry at exactly the target time; the run completes within the fuel. -/
theorem run_until_boundary_witness :
    (wRun.now_ ≤ 5 ∧ (run_until 3 5 wRun).isSome = true) ∧
    (∀ w2 tr, run_until 3 5 wRun = some (w2, tr) →
      w2.now_ = 5 ∧ (∀ m ∈ tr, m.time < 5) ∧
      ∀ x ∈ w2.heap, (5 : Int) ≤ x.time) :=
  ⟨⟨by decide, by decide⟩, run_until_boundary 3 5 wRun (by decide)⟩

/-! ### C3: dequeue order is ascending in (time, seq) -/

/-- C3: in any run, the popped entries are strictly ascending in the
lexicographic (time, seq) order — smaller times first and, among equal
times, the entry scheduled earlier (smaller seq) first — and `schedule`
assigns the fresh seq `next_id_` to the new entry and increments the
monotone counter. -/
theorem dequeue_sorted (fuel : Nat) (w : World) (hinv : HInv w) :
    List.Pairwise Entry.ltE (runTrace fuel w).2 ∧
    ∀ (e : Nat) (d : Int),
      schedule e d w = { w with heap := ⟨w.now_ + d, w.nextId, e⟩ :: w.heap,
                                nextId := w.nextId + 1 } :=
  ⟨runTrace_sorted fuel w hinv, fun _ _ => rfl⟩

/-- A world for the C3 witness: three entries, two sharing time 2 with
seq 0 and 1 and one at time 1 with seq 2. -/
def wFifo : World :=
  ⟨0, [⟨2, 0, 10⟩, ⟨2, 1, 11⟩, ⟨1, 2, 12⟩], 3, 13, 0, fun _ => default,
   fun _ => 0, fun _ => none⟩

/-- Witness for `dequeue_sorted` on a concrete heap with a time tie. -/
theorem dequeue_sorted_witness :
    HInv wFifo ∧
    (List.Pairwise Entry.ltE (runTrace 4 wFifo).2 ∧
     ∀ (e : Nat) (d : Int),
       schedule e d wFifo =
         { wFifo with heap := ⟨wFifo.now_ + d, wFifo.nextId, e⟩ :: wFifo.heap,
                      nextId := wFifo.nextId + 1 }) :=
  ⟨by constructor <;> decide, dequeue_sorted 4 wFifo (by constructor <;> decide)⟩

/-! ### C4: all_of with every input already processed -/

theorem all_of_internal_noop (out ctr : Nat) :
    ∀ (l : List Nat) (w : World), (∀ e ∈ l, processed e w = true) →
      l.foldl (fun acc e => all_of_internal out ctr e acc) w = w := by
  intro l
  induction l with
  | nil => intro w _; rfl
  | cons a l ih =>
    intro w hall
    have ha : processed a w = true := hall a (List.mem_cons_self a l)
    have hstep : all_of_internal out ctr a w = w := by
      simp [all_of_internal, ha]
    rw [List.foldl_cons, hstep]
    exact ih w (fun e he => hall e (List.mem_cons_of_mem a he))

/-- C4 counterexample: the variadic `all_of` (the
`include/fschuetz04/simcpp20` chain of `all_of_internal`) called with a
single already-processed input returns an event that is pending and
schedules nothing — the heap stays empty — contradicting the claim that
the returned event is scheduled to be processed immediately. -/
theorem all_of_var_cex :
    processed 0 wProcessed = true ∧
    (all_of_var [0] wProcessed).2.heap = [] ∧
    ((all_of_var [0] wProcessed).2.evs (all_of_var [0] wProcessed).1).state
      = .pending := by
  refine ⟨by decide, by decide, by decide⟩

/-- C4 amended: when every supplied input is already processed (or the
list is empty), the vector-based `all_of` of `simcpp20/simcpp20.hpp`
schedules the returned fresh event immediately (an entry at the current
time on the heap); the variadic `all_of` of
`include/fschuetz04/simcpp20/simulation.hpp` instead leaves the heap
unchanged and the returned event pending forever. -/
theorem all_of_immediate (w : World) (evs : List Nat)
    (hall : ∀ e ∈ evs, processed e w = true)
    (hfresh : ∀ e ∈ evs, e < w.nextEv) :
    ((all_of evs w).1 = w.nextEv ∧
     (all_of evs w).2.heap = ⟨w.now_, w.nextId, w.nextEv⟩ :: w.heap) ∧
    ((all_of_var evs w).2.heap = w.heap ∧
     ((all_of_var evs w).2.evs (all_of_var evs w).1).state = .pending) := by
  have hcnt : evs.countP (fun e => processed e w) = evs.length :=
    List.countP_eq_length.mpr (by intro a ha; simpa using hall a ha)
  have hn : evs.length - evs.countP (fun e => processed e w) = 0 := by
    rw [hcnt]; exact Nat.sub_self _
  have hproc2 : ∀ e2 ∈ evs, processed e2
      ({ w with nextCtr := w.nextCtr + 1,
                counters := updF w.counters w.nextCtr 0,
                nextEv := w.nextEv + 1,
                evs := updF w.evs w.nextEv default } : World) = true := by
    intro e2 he2
    have hne : e2 ≠ w.nextEv := Nat.ne_of_lt (hfresh e2 he2)
    have := hall e2 he2
    simpa [processed, updF, hne] using this
  have hnoop := all_of_internal_noop w.nextEv w.nextCtr evs _ hproc2
  constructor
  · constructor
    · simp [all_of, hn, timeout, newEvent]
    · simp [all_of, hn, timeout, newEvent, schedule]
  · constructor
    · simp only [all_of_var, newCounter, newEvent]
      rw [hnoop]
    · simp only [all_of_var, newCounter, newEvent]
      rw [hnoop]
      simp only [evs_update_at, updF_same]
      rfl

/-- A world for the C4 witness: events 0 and 1 are processed. -/
def wAllProc : World :=
  ⟨0, [], 0, 2, 0,
   fun i => if i ≤ 1 then ⟨.processed, [], []⟩ else default,
   fun _ => 0, fun _ => none⟩

/-- Witness for `all_of_immediate` with two concrete processed inputs. -/
theorem all_of_immediate_witness :
    ((∀ e ∈ [0, 1], processed e wAllProc = true) ∧
     (∀ e ∈ [0, 1], e < wAllProc.nextEv)) ∧
    (((all_of [0, 1] wAllProc).1 = wAllProc.nextEv ∧
      (all_of [0, 1] wAllProc).2.heap =
        ⟨wAllProc.now_, wAllProc.nextId, wAllProc.nextEv⟩ :: wAllProc.heap) ∧
     ((all_of_var [0, 1] wAllProc).2.heap = wAllProc.heap ∧
      ((all_of_var [0, 1] wAllProc).2.evs
        (all_of_var [0, 1] wAllProc).1).state = .pending)) :=
  ⟨⟨by decide, by decide⟩,
   all_of_immediate wAllProc [0, 1] (by decide) (by decide)⟩

/-! ### C5: any_of with a processed input or an empty list -/

/-- C5 counterexample: the vector-based `any_of` of
`simcpp20/simcpp20.hpp` called with an empty list returns a plain
pending event and schedules nothing — the heap stays empty — so the
returned event does not fire immediately, contradicting the claim. -/
theorem any_of_empty_cex :
    (any_of [] wEmpty).2.heap = [] ∧
    ((any_of [] wEmpty).2.evs (any_of [] wEmpty).1).state = .pending := by
  refine ⟨by decide, by decide⟩

/-- C5 amended: if some supplied input is already processed, the
vector-based `any_of` schedules the returned fresh event immediately
(an entry at the current time), and the variadic `any_of_internal`
triggers the output event immediately when its input is processed; but
when the supplied list is empty, the returned event stays pending
forever and nothing is scheduled. -/
theorem any_of_spec (w : World) (evs : List Nat) (out cur : Nat) :
    ((∃ e ∈ evs, processed e w = true) →
      (any_of evs w).1 = w.nextEv ∧
      (any_of evs w).2.heap = ⟨w.now_, w.nextId, w.nextEv⟩ :: w.heap) ∧
    ((any_of ([] : List Nat) w).2.heap = w.heap ∧
     ((any_of ([] : List Nat) w).2.evs (any_of ([] : List Nat) w).1).state
       = .pending) ∧
    (processed cur w = true → pending out w = true →
      (any_of_internal out cur w).heap = ⟨w.now_, w.nextId, out⟩ :: w.heap ∧
      ((any_of_internal out cur w).evs out).state = .triggered) := by
  refine ⟨?_, ⟨?_, ?_⟩, ?_⟩
  · intro hex
    have hany : evs.any (fun e => processed e w) = true := by
      obtain ⟨e, he, hpe⟩ := hex
      exact List.any_eq_true.mpr ⟨e, he, hpe⟩
    constructor
    · simp [any_of, hany, timeout, newEvent]
    · simp [any_of, hany, timeout, newEvent, schedule]
  · simp [any_of, newEvent]
  · simp [any_of, newEvent, updF]
    rfl
  · intro hcur hout
    constructor
    · simp [any_of_internal, hcur, trigger, hout, schedule]
    · simp [any_of_internal, hcur, trigger, hout, schedule]

/-- A world for the C5 witness: event 0 processed, event 1 pending. -/
def wOneProc : World :=
  ⟨0, [], 0, 2, 0,
   fun i => if i = 0 then ⟨.processed, [], []⟩ else default,
   fun _ => 0, fun _ => none⟩

/-- Witness for `any_of_spec` with a concrete processed input and a
concrete pending output event. -/
theorem any_of_spec_witness :
    ((∃ e ∈ [0, 1], processed e wOneProc = true) ∧
     processed 0 wOneProc = true ∧ pending 1 wOneProc = true) ∧
    ((((any_of [0, 1] wOneProc).1 = wOneProc.nextEv ∧
       (any_of [0, 1] wOneProc).2.heap =
         ⟨wOneProc.now_, wOneProc.nextId, wOneProc.nextEv⟩ :: wOneProc.heap)) ∧
     ((any_of ([] : List Nat) wOneProc).2.heap = wOneProc.heap ∧
      ((any_of ([] : List Nat) wOneProc).2.evs
        (any_of ([] : List Nat) wOneProc).1).state = .pending) ∧
     ((any_of_internal 1 0 wOneProc).heap =
        ⟨wOneProc.now_, wOneProc.nextId, 1⟩ :: wOneProc.heap ∧
      ((any_of_internal 1 0 wOneProc).evs 1).state = .triggered)) :=
  ⟨⟨by decide, by decide, by decide⟩,
   ⟨((any_of_spec wOneProc [0, 1] 1 0).1 (by decide)),
    (any_of_spec wOneProc [0, 1] 1 0).2.1,
    ((any_of_spec wOneProc [0, 1] 1 0).2.2 (by decide) (by decide))⟩⟩

end simcpp20
